import Mathlib

/-!
Shallow embedding of the `telemetry-test-tools` background-job queue: the
job record (`bgjob`), the bounded-concurrency scheduler (`bgqueue`), and
the two statistics accumulators (`bgstats`), together with theorems that
check the specified properties against the embedded code.

Conventions of the embedding:
* Go `int` / `int64` / `time.Duration` are modelled as `ℤ` (a
  `time.Duration` is an integer count of nanoseconds); Go integer division
  truncates toward zero, which is `Int.tdiv`.
* Go `float64` expressions are modelled over `ℚ`; where a computation can
  divide by zero, a model with infinities and NaN (`GoFloat`) mirrors
  IEEE-754 division.
* `math.Round` rounds half away from zero (`goRound`).
* Go code that panics on some inputs (indexing `vals[0]` of an empty
  slice, integer division by zero) is embedded as an `Option`-valued
  function returning `none` exactly on the panicking inputs.
-/

namespace TelemetryTools

/-- The fields of `bgjob.BackgroundJob` that the statistics accumulators
read: the exit status of the job and its duration in nanoseconds. -/
structure BackgroundJob where
  ExitStatus : ℤ
  Duration : ℤ
deriving Repr, DecidableEq

/-- Go `math.Round`: round to the nearest integer, half away from zero. -/
def goRound (q : ℚ) : ℤ :=
  if 0 ≤ q then ⌊q + 1 / 2⌋ else ⌈q - 1 / 2⌉

/-- Go `bgstats.percentage`: `math.Round(fraction/total*100*1000)/1000`,
i.e. the percentage rounded to three decimals. -/
def percentage (fraction total : ℚ) : ℚ :=
  (goRound (fraction / total * 100 * 1000) : ℚ) / 1000

namespace bgstats

/-- Go `bgstats.sum`: `tot := 0; for v in vals, tot += v`. -/
def sum (vals : List ℤ) : ℤ :=
  vals.foldl (· + ·) 0

/-- Go `bgstats.max`: `m := vals[0]; for v in vals[1:], if v > m then m = v`.
Indexing `vals[0]` panics on an empty slice, hence `none` there. -/
def max (vals : List ℤ) : Option ℤ :=
  match vals with
  | [] => none
  | v :: rest => some (rest.foldl (fun m w => if w > m then w else m) v)

/-- Go `bgstats.min`: `m := vals[0]; for v in vals[1:], if v < m then m = v`.
Indexing `vals[0]` panics on an empty slice, hence `none` there. -/
def min (vals : List ℤ) : Option ℤ :=
  match vals with
  | [] => none
  | v :: rest => some (rest.foldl (fun m w => if w < m then w else m) v)

/-- Go `bgstats.average`: `sum(vals) / T(len(vals))` with `T` an integer type,
so Go division truncates toward zero and panics when `len(vals) == 0`. -/
def average (vals : List ℤ) : Option ℤ :=
  if vals.length = 0 then none
  else some ((sum vals).tdiv (vals.length : ℤ))

end bgstats

/-- Go `bgstats.BgQueueStats`, the sample-retaining variant in
`pkg/bgqueue/bgstats/bgstats.go`: outcome counters plus the list of all
observed job durations. The private `started`/`finished` wall-clock
fields are omitted; `ActiveTime` holds their difference (nanoseconds) as
set by `Finish`. A fresh value has all fields zero. -/
structure BgQueueStats where
  durations : List ℤ := []
  Total : ℤ := 0
  Completed : ℤ := 0
  Succeeded : ℤ := 0
  Failed : ℤ := 0
  Invalid : ℤ := 0
  ActiveTime : ℤ := 0
deriving Repr, DecidableEq

/-- Go `bgstats.New` / `Init`: a zero value with `Total` set. -/
def BgQueueStats.new (totalJobs : ℤ) : BgQueueStats :=
  { Total := totalJobs }

/-- Go `bgstats.(*BgQueueStats).Update`: increment `Completed` and exactly
one of `Succeeded` / `Failed` / `Invalid` according to the job's exit
status, then append the job's duration to the sample list. -/
def BgQueueStats.update (bqs : BgQueueStats) (bj : BackgroundJob) : BgQueueStats :=
  let s1 := { bqs with Completed := bqs.Completed + 1 }
  let s2 :=
    if bj.ExitStatus = 0 then { s1 with Succeeded := s1.Succeeded + 1 }
    else if 0 < bj.ExitStatus then { s1 with Failed := s1.Failed + 1 }
    else { s1 with Invalid := s1.Invalid + 1 }
  { s2 with durations := s2.durations ++ [bj.Duration] }

/-- A sequence of `Update` calls, in order. -/
def BgQueueStats.applyUpdates (bqs : BgQueueStats) (jobs : List BackgroundJob) :
    BgQueueStats :=
  jobs.foldl BgQueueStats.update bqs

/-- Go `CompletionPercentage`. -/
def BgQueueStats.CompletionPercentage (bqs : BgQueueStats) : ℚ :=
  percentage (bqs.Completed : ℚ) (bqs.Total : ℚ)

/-- Go `SuccessPercentage`. -/
def BgQueueStats.SuccessPercentage (bqs : BgQueueStats) : ℚ :=
  percentage (bqs.Succeeded : ℚ) (bqs.Total : ℚ)

/-- Go `FailurePercentage`. -/
def BgQueueStats.FailurePercentage (bqs : BgQueueStats) : ℚ :=
  percentage (bqs.Failed : ℚ) (bqs.Total : ℚ)

/-- Go `InvalidPercentage`, exactly as in the source: it passes `bqs.Failed`
(not `bqs.Invalid`) to `percentage`. -/
def BgQueueStats.InvalidPercentage (bqs : BgQueueStats) : ℚ :=
  percentage (bqs.Failed : ℚ) (bqs.Total : ℚ)

/-- Go `AggregateRunTime`. -/
def BgQueueStats.AggregateRunTime (bqs : BgQueueStats) : ℤ :=
  bgstats.sum bqs.durations

/-- Go `AverageRunTime`. -/
def BgQueueStats.AverageRunTime (bqs : BgQueueStats) : Option ℤ :=
  bgstats.average bqs.durations

/-- Go `MinimumRunTime`. -/
def BgQueueStats.MinimumRunTime (bqs : BgQueueStats) : Option ℤ :=
  bgstats.min bqs.durations

/-- Go `MaximumRunTime`. -/
def BgQueueStats.MaximumRunTime (bqs : BgQueueStats) : Option ℤ :=
  bgstats.max bqs.durations

/-- A model of the Go `float64` values arising in the rate computations:
a finite rational, one of the two infinities, or NaN. -/
inductive GoFloat
  | fin (q : ℚ)
  | inf
  | neginf
  | nan
deriving Repr, DecidableEq

/-- IEEE-754 style division on `GoFloat` (Go float division never traps:
`x/0` is `±Inf` for `x ≠ 0` and `NaN` for `x = 0`). Signed zero is not
modelled; the zeros appearing in these computations are positive. -/
def GoFloat.div : GoFloat → GoFloat → GoFloat
  | .nan, _ => .nan
  | _, .nan => .nan
  | .fin a, .fin b =>
      if b ≠ 0 then .fin (a / b)
      else if 0 < a then .inf
      else if a < 0 then .neginf
      else .nan
  | .fin _, .inf => .fin 0
  | .fin _, .neginf => .fin 0
  | .inf, .fin b => if 0 ≤ b then .inf else .neginf
  | .neginf, .fin b => if 0 ≤ b then .neginf else .inf
  | .inf, .inf => .nan
  | .inf, .neginf => .nan
  | .neginf, .inf => .nan
  | .neginf, .neginf => .nan

/-- Go `time.Duration.Seconds()`: the nanosecond count divided by `1e9`. -/
def durationSeconds (d : ℤ) : GoFloat :=
  .fin ((d : ℚ) / 1000000000)

/-- Go `CompletionRate`, exactly as in the source:
`1.0 / (bqs.ActiveTime.Seconds() / float64(bqs.Completed))`, with no
guard on either divisor. -/
def BgQueueStats.CompletionRate (bqs : BgQueueStats) : GoFloat :=
  GoFloat.div (.fin 1)
    (GoFloat.div (durationSeconds bqs.ActiveTime) (.fin (bqs.Completed : ℚ)))

/-- The spec's description of `CompletionRate`: `Completed` divided by
`ActiveTime` in seconds, guarded against division by zero
(`ActiveTime == 0` or `Completed == 0`). Used only to compare the code
against the spec's words. -/
def completionRateSpec (bqs : BgQueueStats) : Option ℚ :=
  if bqs.ActiveTime = 0 ∨ bqs.Completed = 0 then none
  else some ((bqs.Completed : ℚ) / ((bqs.ActiveTime : ℚ) / 1000000000))

/-- The aggregate statistics accumulator: the `bgstats.BgQueueStats`
variant embedded in `pkg/bgqueue/bgjob/bgjob.go`, which keeps no sample
list but running `AggregateTime` / `MinDuration` / `MaxDuration`
trackers, all seeded at zero. -/
structure BgAggStats where
  Total : ℤ := 0
  Completed : ℤ := 0
  Succeeded : ℤ := 0
  Failed : ℤ := 0
  Invalid : ℤ := 0
  ActiveTime : ℤ := 0
  AggregateTime : ℤ := 0
  MinDuration : ℤ := 0
  MaxDuration : ℤ := 0
deriving Repr, DecidableEq

/-- Go `New` / `Init` of the aggregate variant. -/
def BgAggStats.new (totalJobs : ℤ) : BgAggStats :=
  { Total := totalJobs }

/-- Go `Update` of the aggregate variant: the same counter updates, then
`AggregateTime += Duration`;
`if Duration < MinDuration || MinDuration == 0 then MinDuration = Duration`;
`if Duration > MaxDuration then MaxDuration = Duration`. -/
def BgAggStats.update (bqs : BgAggStats) (bj : BackgroundJob) : BgAggStats :=
  let s1 := { bqs with Completed := bqs.Completed + 1 }
  let s2 :=
    if bj.ExitStatus = 0 then { s1 with Succeeded := s1.Succeeded + 1 }
    else if 0 < bj.ExitStatus then { s1 with Failed := s1.Failed + 1 }
    else { s1 with Invalid := s1.Invalid + 1 }
  let s3 := { s2 with AggregateTime := s2.AggregateTime + bj.Duration }
  let s4 :=
    if bj.Duration < s3.MinDuration ∨ s3.MinDuration = 0 then
      { s3 with MinDuration := bj.Duration }
    else s3
  if bj.Duration > s4.MaxDuration then
    { s4 with MaxDuration := bj.Duration }
  else s4

/-- A sequence of `Update` calls on the aggregate variant. -/
def BgAggStats.applyUpdates (bqs : BgAggStats) (jobs : List BackgroundJob) :
    BgAggStats :=
  jobs.foldl BgAggStats.update bqs

/-- Go `MinimumRunTime` of the aggregate variant. -/
def BgAggStats.MinimumRunTime (bqs : BgAggStats) : ℤ :=
  bqs.MinDuration

/-- Go `fmt.Sprintf("%06d", n)` for a nonnegative `n`: the decimal digits
padded with leading zeros to at least six characters. -/
def pad6 (n : ℕ) : String :=
  let s := toString n
  String.mk (List.replicate (6 - s.length) '0') ++ s

/-- Go `bgjob.(*BackgroundJob).setName`:
`bj.Name = fmt.Sprintf("%s_%06d", prefix, bj.Id)`. -/
def setName (pfx : String) (id : ℕ) : String :=
  pfx ++ "_" ++ pad6 id

/-- The job names produced by `bgqueue.(*BgQueue).Init`: for each index
`i` in `0..totalJobs-1` it calls `bgjob.New(i, "bgjob", command)` — the
name is built from the literal string `"bgjob"`, while the configured
name prefix (stored in `bq.prefix` by `Init` and validated by the CLI)
is never used. -/
def bgQueueJobNames (totalJobs : ℕ) (pfx : String) : List String :=
  (List.range totalJobs).map (fun i => setName "bgjob" i)

/-- Go `bgqueue.(*BgQueue).setTicks` step computation:
`int(math.Ceil(float64(numJobs) / float64(numTicks)))`, embedded as the
exact natural-number ceiling `(numJobs + numTicks - 1) / numTicks`. -/
def tickStep (numJobs numTicks : ℕ) : ℕ :=
  (numJobs + numTicks - 1) / numTicks

/-- The `nextTick` boundary sequence: `setTicks` resets `nextTick` to `0`,
and each `updateNextTick` call performs
`nextTick = min(nextTick + tickStep, numJobs)`. `nextTickSeq N T k` is
the value of `nextTick` after `k` calls of `updateNextTick`. -/
def nextTickSeq (numJobs numTicks : ℕ) : ℕ → ℕ
  | 0 => 0
  | k + 1 =>
      Nat.min (nextTickSeq numJobs numTicks k + tickStep numJobs numTicks) numJobs

/-- The error value `exec.Cmd.Run` can return, as inspected by
`bgjob.(*BackgroundJob).Run`:
* `exitError code`: the error is a `*exec.ExitError` — the process ran
  and exited unsuccessfully; `ExitCode()` is its positive exit code, or
  `-1` when the process was terminated by a signal;
* `otherError`: any other error (the command could not be started). -/
inductive RunError
  | exitError (code : ℤ)
  | otherError
deriving Repr, DecidableEq

/-- The error handling at the end of `bgjob.(*BackgroundJob).Run`, as a
function of the value returned by `cmd.Run()` (`runErr`, where `none`
means the command ran and exited zero) and of whether `cmd.Err` was
non-nil (`cmdErrSet`). Result: the final `(ExitStatus, CmdError set?)`
pair. `ExitStatus` starts at zero, and both fields are written only
inside the `if bj.Error != nil` block. -/
def runClassify (runErr : Option RunError) (cmdErrSet : Bool) : ℤ × Bool :=
  match runErr with
  | none => (0, false)
  | some (.exitError code) => (code, cmdErrSet)
  | some .otherError => (-1, cmdErrSet)

/-- Control points of one `bgqueue.(*BgQueue).runJob` goroutine:
* `idle`: spawned (after `MarkReady`), blocked on `slot <- bgJobSlot{}`;
* `running`: admission slot acquired, `MarkStarted` done, the command is
  executing — the started-but-unfinished state;
* `sentResult` is reached in two steps: `cmdDone` (the command finished,
  `bj.Run()` returned, result not yet sent) and then `sentResult`
  (`resultQueue <- bj` executed, slot still held — the deferred
  `<-slot` has not run yet);
* `exited`: the deferred slot release and `JobGroup.Done()` ran. -/
inductive JobPhase
  | idle
  | running
  | cmdDone
  | sentResult
  | exited
deriving Repr, DecidableEq

/-- Predicate for phases that hold an admission slot: from the acquire in
`runJob` until the deferred release at goroutine exit. -/
def JobPhase.holdsSlot : JobPhase → Bool
  | .running => true
  | .cmdDone => true
  | .sentResult => true
  | _ => false

/-- Predicate for phases whose goroutine has already executed
`resultQueue <- bj`. -/
def JobPhase.delivered : JobPhase → Bool
  | .sentResult => true
  | .exited => true
  | _ => false

/-- Predicate for the started-but-unfinished phase. -/
def JobPhase.isRunning : JobPhase → Bool
  | .running => true
  | _ => false

/-- Global state of a `bgqueue.(*BgQueue).Run` execution: the phase of
each of the `numJobs` goroutines, the number of times each goroutine has
sent its job to `jobResults`, and the number of results the consumer
loop has taken from `jobResults` — each receive performs exactly one
`Stats.Update`, and `Update` increments `Stats.Completed` by exactly
one, so `completed` is `Stats.Completed`. -/
structure QState where
  phases : List JobPhase
  sends : List ℕ
  completed : ℕ
deriving Repr, DecidableEq

/-- State at the top of `Run`: all goroutines spawned and idle, nothing
sent, nothing received. -/
def initState (numJobs : ℕ) : QState :=
  ⟨List.replicate numJobs .idle, List.replicate numJobs 0, 0⟩

/-- Number of admission slots currently held (the semaphore channel
`jobSlots` has this many queued tokens). -/
def slotsHeld (s : QState) : ℕ :=
  s.phases.countP JobPhase.holdsSlot

/-- Number of results sent to `jobResults` so far. -/
def sentCount (s : QState) : ℕ :=
  s.phases.countP JobPhase.delivered

/-- Number of jobs in the started-but-unfinished state. -/
def runningCount (s : QState) : ℕ :=
  s.phases.countP JobPhase.isRunning

/-- Interleaving semantics of `bgqueue.(*BgQueue).Run` with `numJobs`
jobs and `numSlots` admission slots. Each constructor is one atomic
transition of one goroutine or of the consumer loop:
* `acquire`: goroutine `i` completes `slot <- bgJobSlot{}`, possible only
  when fewer than `numSlots` tokens are queued (channel capacity);
* `finish`: the command of goroutine `i` exits, `bj.Run()` returns;
* `send`: goroutine `i` completes `resultQueue <- bj`, possible only when
  the `jobResults` channel (capacity `numJobs`) is not full;
* `release`: the deferred `<-slot` of goroutine `i` runs and the
  goroutine exits;
* `recv`: the consumer loop receives one result (possible only when the
  channel is non-empty) and runs `Stats.Update` on it. -/
inductive Step (numJobs numSlots : ℕ) : QState → QState → Prop
  | acquire (s : QState) (i : ℕ)
      (hp : s.phases.getD i .exited = .idle)
      (hs : slotsHeld s < numSlots) :
      Step numJobs numSlots s { s with phases := s.phases.set i .running }
  | finish (s : QState) (i : ℕ)
      (hp : s.phases.getD i .exited = .running) :
      Step numJobs numSlots s { s with phases := s.phases.set i .cmdDone }
  | send (s : QState) (i : ℕ)
      (hp : s.phases.getD i .exited = .cmdDone)
      (hcap : sentCount s - s.completed < numJobs) :
      Step numJobs numSlots s
        { s with
          phases := s.phases.set i .sentResult
          sends := s.sends.set i (s.sends.getD i 0 + 1) }
  | release (s : QState) (i : ℕ)
      (hp : s.phases.getD i .exited = .sentResult) :
      Step numJobs numSlots s { s with phases := s.phases.set i .exited }
  | recv (s : QState)
      (h : s.completed < sentCount s) :
      Step numJobs numSlots s { s with completed := s.completed + 1 }

/-- States reachable from the start of `Run`. -/
inductive Reachable (numJobs numSlots : ℕ) : QState → Prop
  | init : Reachable numJobs numSlots (initState numJobs)
  | step {s t : QState} : Reachable numJobs numSlots s →
      Step numJobs numSlots s t → Reachable numJobs numSlots t

/-- End of a run: every goroutine has exited (so `JobGroup.Wait` returned
and `jobResults` was closed) and the consumer has drained the channel. -/
def FinalState (s : QState) : Prop :=
  (∀ p ∈ s.phases, p = JobPhase.exited) ∧ s.completed = sentCount s

/-- Remaining transitions of one goroutine from a given phase. -/
def phaseWork : JobPhase → ℕ
  | .idle => 4
  | .running => 3
  | .cmdDone => 2
  | .sentResult => 1
  | .exited => 0

/-- Termination measure: total remaining goroutine transitions plus
remaining receives. Every `Step` strictly decreases it. -/
def runMeasure (numJobs : ℕ) (s : QState) : ℕ :=
  (s.phases.map phaseWork).sum + (numJobs - s.completed)

/-- Invariant of `Run` maintained by every `Step`: the two per-job lists
have length `numJobs`; at most `numSlots` admission slots are held; the
consumer never receives more than was sent; and each goroutine's send
count is one exactly when it has passed its `send` transition. -/
def SchedInv (numJobs numSlots : ℕ) (s : QState) : Prop :=
  s.phases.length = numJobs
  ∧ s.sends.length = numJobs
  ∧ slotsHeld s ≤ numSlots
  ∧ s.completed ≤ sentCount s
  ∧ ∀ i, i < numJobs →
      s.sends.getD i 0 = (if (s.phases.getD i .exited).delivered then 1 else 0)

/-! Helper lemmas. -/

/-- Rounding an integer is the identity. -/
theorem goRound_intCast (z : ℤ) : goRound (z : ℚ) = z := by
  unfold goRound
  by_cases h : (0 : ℚ) ≤ (z : ℚ)
  · rw [if_pos h, Int.floor_eq_iff]
    constructor
    · linarith
    · linarith
  · rw [if_neg h, Int.ceil_eq_iff]
    constructor
    · linarith
    · linarith

/-! Claim theorems. -/

/-- C1 (code bug): for a run of one job whose exit status is `-1`
(`Total = 1`, `Completed = 1`, `Invalid = 1`, `Failed = 0`),
`InvalidPercentage()` returns `0` — the source passes the `Failed`
counter to `percentage` — while the claimed value
`round(Invalid / Total * 100, 3 decimals)` is `100`; consequently the
three outcome percentages sum to `0`, not `≈ 100.0`, even though
`Completed == Total`. -/
theorem invalidPercentage_reads_failed_counter :
    (BgQueueStats.applyUpdates (BgQueueStats.new 1) [⟨-1, 5⟩]).InvalidPercentage = 0
    ∧ percentage
        ((BgQueueStats.applyUpdates (BgQueueStats.new 1) [⟨-1, 5⟩]).Invalid : ℚ)
        ((BgQueueStats.applyUpdates (BgQueueStats.new 1) [⟨-1, 5⟩]).Total : ℚ) = 100
    ∧ (BgQueueStats.applyUpdates (BgQueueStats.new 1) [⟨-1, 5⟩]).Completed
        = (BgQueueStats.applyUpdates (BgQueueStats.new 1) [⟨-1, 5⟩]).Total
    ∧ (BgQueueStats.applyUpdates (BgQueueStats.new 1) [⟨-1, 5⟩]).SuccessPercentage
        + (BgQueueStats.applyUpdates (BgQueueStats.new 1) [⟨-1, 5⟩]).FailurePercentage
        + (BgQueueStats.applyUpdates (BgQueueStats.new 1) [⟨-1, 5⟩]).InvalidPercentage
        = 0 := by
  have hs : BgQueueStats.applyUpdates (BgQueueStats.new 1) [⟨-1, 5⟩]
      = { durations := [5], Total := 1, Completed := 1, Succeeded := 0,
          Failed := 0, Invalid := 1, ActiveTime := 0 } := by decide
  have h0 : goRound 0 = 0 := by simpa using goRound_intCast 0
  have h100k : goRound 100000 = 100000 := by
    simpa using goRound_intCast 100000
  rw [hs]
  refine ⟨?_, ?_, by decide, ?_⟩
  · norm_num [BgQueueStats.InvalidPercentage, percentage, h0]
  · norm_num [percentage, h100k]
  · norm_num [BgQueueStats.SuccessPercentage, BgQueueStats.FailurePercentage,
      BgQueueStats.InvalidPercentage, percentage, h0]

/-- C9 (confirmed): in the aggregate statistics variant, whose minimum
tracker is seeded at zero and updated under
`Duration < MinDuration || MinDuration == 0`, the completed-job sequence
with durations `0` then `5` (the first a genuinely zero-duration job)
leaves `MinimumRunTime() = 5`, whereas the true minimum of the observed
durations `[0, 5]` is `0`: the zero sample is treated as "no minimum
seen yet" and later overwritten. -/
theorem minDuration_zero_seed_overwritten :
    (BgAggStats.applyUpdates (BgAggStats.new 2) [⟨0, 0⟩, ⟨0, 5⟩]).MinimumRunTime = 5
    ∧ bgstats.min [0, 5] = some 0
    ∧ some (BgAggStats.applyUpdates (BgAggStats.new 2) [⟨0, 0⟩, ⟨0, 5⟩]).MinimumRunTime
        ≠ bgstats.min [0, 5] := by
  decide

/-- C7 (code bug): in a run configured with name prefix `"myrun"`
(length ≥ 2) and one job, the scheduler constructs the job with name
`"bgjob_000000"` — `bgqueue.Init` passes the literal `"bgjob"` to
`bgjob.New` and never uses the configured prefix it stores — whereas
naming by prefix+id, as `setName` does with the configured value, would
give `"myrun_000000"`. -/
theorem jobNames_ignore_configured_value :
    bgQueueJobNames 1 "myrun" = ["bgjob_000000"]
    ∧ setName "myrun" 0 = "myrun_000000"
    ∧ bgQueueJobNames 1 "myrun" ≠ [setName "myrun" 0] := by
  decide

/-- C4 counterexample: a process that ran but was terminated by a signal
makes `cmd.Run()` return a `*exec.ExitError` whose `ExitCode()` is `-1`
while `cmd.Err` is nil, so `Run` sets `ExitStatus = -1 < 0` and leaves
`CmdError` unset — refuting `ExitStatus < 0 ⇔ CmdError set`. -/
theorem exitStatus_neg_without_cmdError :
    (runClassify (some (RunError.exitError (-1))) false).1 < 0
    ∧ (runClassify (some (RunError.exitError (-1))) false).2 = false := by
  decide

/-- C4 (amended): given the `os/exec` guarantees that a non-nil `cmd.Err`
is returned by `cmd.Run()` as a non-`ExitError` and that an `ExitError`
never carries exit code `0`: `CmdError` set implies `ExitStatus < 0`;
`ExitStatus == 0` iff the command ran and succeeded; and
`ExitStatus > 0` implies the command ran, exited with that positive
code, and no launch cause was recorded. The converse
`ExitStatus < 0 → CmdError set` does not hold. -/
theorem runClassify_amended (runErr : Option RunError) (cmdErrSet : Bool)
    (hexec : cmdErrSet = true → runErr = some RunError.otherError)
    (hcode : ∀ c : ℤ, runErr = some (RunError.exitError c) → c ≠ 0) :
    ((runClassify runErr cmdErrSet).2 = true → (runClassify runErr cmdErrSet).1 < 0)
    ∧ ((runClassify runErr cmdErrSet).1 = 0 ↔ runErr = none)
    ∧ (0 < (runClassify runErr cmdErrSet).1 →
        (∃ c : ℤ, runErr = some (RunError.exitError c) ∧ 0 < c)
        ∧ (runClassify runErr cmdErrSet).2 = false) := by
  cases runErr with
  | none => simp [runClassify]
  | some e =>
    cases e with
    | exitError c =>
      cases cmdErrSet with
      | false =>
        have hc : c ≠ 0 := hcode c rfl
        refine ⟨by intro h; simp [runClassify] at h, ?_, ?_⟩
        · simp [runClassify, hc]
        · intro hpos
          exact ⟨⟨c, rfl, by simpa [runClassify] using hpos⟩, rfl⟩
      | true =>
        exact absurd (hexec rfl) (by simp)
    | otherError =>
      refine ⟨fun _ => by simp [runClassify], by simp [runClassify], ?_⟩
      intro hpos
      simp [runClassify] at hpos

/-- C4 amended-claim witness at a command that ran and exited with
code 7 and no `cmd.Err`. -/
theorem runClassify_amended_witness :
    ((runClassify (some (RunError.exitError 7)) false).2 = true →
      (runClassify (some (RunError.exitError 7)) false).1 < 0)
    ∧ ((runClassify (some (RunError.exitError 7)) false).1 = 0 ↔
        (some (RunError.exitError 7) : Option RunError) = none)
    ∧ (0 < (runClassify (some (RunError.exitError 7)) false).1 →
        (∃ c : ℤ, (some (RunError.exitError 7) : Option RunError)
            = some (RunError.exitError c) ∧ 0 < c)
        ∧ (runClassify (some (RunError.exitError 7)) false).2 = false) :=
  runClassify_amended (some (RunError.exitError 7)) false
    (by intro h; exact absurd h (by decide))
    (by intro c hc; simp at hc; omega)

/-- C3 counterexample: at the reachable accumulator state with
`ActiveTime = 0` and `Completed = 1`, `CompletionRate()` performs the
division anyway and returns `+Inf` — the claimed guard against division
by zero (`ActiveTime == 0` or `Completed == 0`) does not exist in the
code — while the spec-side guarded value is undefined there. -/
theorem completionRate_division_unguarded :
    (BgQueueStats.applyUpdates (BgQueueStats.new 1) [⟨0, 5⟩]).CompletionRate
      = GoFloat.inf
    ∧ completionRateSpec (BgQueueStats.applyUpdates (BgQueueStats.new 1) [⟨0, 5⟩])
      = none := by
  have hs : BgQueueStats.applyUpdates (BgQueueStats.new 1) [⟨0, 5⟩]
      = { durations := [5], Total := 1, Completed := 1, Succeeded := 1,
          Failed := 0, Invalid := 0, ActiveTime := 0 } := by decide
  rw [hs]
  constructor
  · simp [BgQueueStats.CompletionRate, GoFloat.div, durationSeconds]
  · simp [completionRateSpec]

/-- C3 (amended): `CompletionRate()` computes
`1 / (ActiveTime_seconds / Completed)` with no division-by-zero guard;
whenever `ActiveTime ≠ 0` and `Completed ≠ 0` this equals
`Completed / ActiveTime_seconds`, the value the spec describes (and the
guarded spec-side function returns the same value there). -/
theorem completionRate_eq_completed_div_active (bqs : BgQueueStats)
    (hAT : bqs.ActiveTime ≠ 0) (hC : bqs.Completed ≠ 0) :
    bqs.CompletionRate
      = GoFloat.fin ((bqs.Completed : ℚ) / ((bqs.ActiveTime : ℚ) / 1000000000))
    ∧ completionRateSpec bqs
      = some ((bqs.Completed : ℚ) / ((bqs.ActiveTime : ℚ) / 1000000000)) := by
  have hATq : ((bqs.ActiveTime : ℚ) / 1000000000) ≠ 0 := by
    apply div_ne_zero
    · exact_mod_cast hAT
    · norm_num
  have hCq : (bqs.Completed : ℚ) ≠ 0 := by exact_mod_cast hC
  constructor
  · have hinner : ((bqs.ActiveTime : ℚ) / 1000000000) / (bqs.Completed : ℚ) ≠ 0 :=
      div_ne_zero hATq hCq
    simp only [BgQueueStats.CompletionRate, durationSeconds, GoFloat.div,
      if_pos hCq, if_pos hinner, ne_eq, not_false_iff, if_true]
    rw [one_div_div]
  · rw [completionRateSpec, if_neg (by tauto)]

/-- C3 amended-claim witness: one second of active time and two completed
jobs give a completion rate of two jobs per second. -/
theorem completionRate_eq_completed_div_active_witness :
    ({ ActiveTime := 1000000000, Completed := 2 } : BgQueueStats).CompletionRate
      = GoFloat.fin
          ((({ ActiveTime := 1000000000, Completed := 2 } : BgQueueStats).Completed : ℚ)
            / ((({ ActiveTime := 1000000000, Completed := 2 } : BgQueueStats).ActiveTime : ℚ)
                / 1000000000))
    ∧ completionRateSpec ({ ActiveTime := 1000000000, Completed := 2 } : BgQueueStats)
      = some
          ((({ ActiveTime := 1000000000, Completed := 2 } : BgQueueStats).Completed : ℚ)
            / ((({ ActiveTime := 1000000000, Completed := 2 } : BgQueueStats).ActiveTime : ℚ)
                / 1000000000)) :=
  completionRate_eq_completed_div_active
    ({ ActiveTime := 1000000000, Completed := 2 } : BgQueueStats)
    (by decide) (by decide)

/-- Field-by-field description of one `Update` call. -/
theorem update_fields (bqs : BgQueueStats) (bj : BackgroundJob) :
    (bqs.update bj).Completed = bqs.Completed + 1
    ∧ (bqs.update bj).Succeeded = bqs.Succeeded + (if bj.ExitStatus = 0 then 1 else 0)
    ∧ (bqs.update bj).Failed = bqs.Failed + (if 0 < bj.ExitStatus then 1 else 0)
    ∧ (bqs.update bj).Invalid = bqs.Invalid + (if bj.ExitStatus < 0 then 1 else 0)
    ∧ (bqs.update bj).durations = bqs.durations ++ [bj.Duration]
    ∧ (bqs.update bj).Total = bqs.Total := by
  unfold BgQueueStats.update
  rcases lt_trichotomy bj.ExitStatus 0 with h | h | h
  · simp [h, h.ne, not_lt.mpr h.le]
  · simp [h]
  · simp [h, h.ne', not_lt.mpr h.le, h.le]

/-- Counting invariants of a sequence of `Update` calls. -/
theorem applyUpdates_counts (s0 : BgQueueStats) (jobs : List BackgroundJob) :
    ((s0.applyUpdates jobs).Completed = s0.Completed + jobs.length)
    ∧ ((s0.applyUpdates jobs).durations.length
        = s0.durations.length + jobs.length)
    ∧ ((s0.applyUpdates jobs).Succeeded + (s0.applyUpdates jobs).Failed
          + (s0.applyUpdates jobs).Invalid
        = s0.Succeeded + s0.Failed + s0.Invalid + jobs.length) := by
  induction jobs generalizing s0 with
  | nil => simp [BgQueueStats.applyUpdates]
  | cons bj rest ih =>
    have hu := update_fields s0 bj
    have hr := ih (s0.update bj)
    have hstep : s0.applyUpdates (bj :: rest) = (s0.update bj).applyUpdates rest := by
      simp [BgQueueStats.applyUpdates]
    rw [hstep]
    obtain ⟨h1, h2, h3, h4, h5, h6⟩ := hu
    obtain ⟨g1, g2, g3⟩ := hr
    refine ⟨?_, ?_, ?_⟩
    · rw [g1, h1]; simp only [List.length_cons]; push_cast; ring
    · rw [g2, h5]; simp; omega
    · rw [g3, h2, h3, h4]
      rcases lt_trichotomy bj.ExitStatus 0 with h | h | h
      · simp only [List.length_cons, h, h.ne, not_lt.mpr h.le, if_true, if_false,
          if_neg, ite_eq_right_iff]
        push_cast
        simp [h, h.ne, not_lt.mpr h.le]
        ring
      · simp only [List.length_cons, h]
        push_cast
        simp
        ring
      · simp only [List.length_cons]
        push_cast
        simp [h.ne', not_lt.mpr h.le, h]
        ring



/-- C2 (confirmed): after every sequence of `Update` calls starting from
a fresh accumulator, `Completed = Succeeded + Failed + Invalid`; and each
single `Update` increments `Completed` by exactly one and exactly one of
`Succeeded` (exit status `== 0`), `Failed` (exit status `> 0`) or
`Invalid` (exit status `< 0`) — the three branch indicators always sum
to one. -/
theorem completed_partitions_outcomes (total : ℤ) (jobs : List BackgroundJob) :
    ((BgQueueStats.new total).applyUpdates jobs).Completed
      = ((BgQueueStats.new total).applyUpdates jobs).Succeeded
        + ((BgQueueStats.new total).applyUpdates jobs).Failed
        + ((BgQueueStats.new total).applyUpdates jobs).Invalid
    ∧ (∀ (bqs : BgQueueStats) (bj : BackgroundJob),
        (bqs.update bj).Completed = bqs.Completed + 1
        ∧ (bqs.update bj).Succeeded
            = bqs.Succeeded + (if bj.ExitStatus = 0 then 1 else 0)
        ∧ (bqs.update bj).Failed
            = bqs.Failed + (if 0 < bj.ExitStatus then 1 else 0)
        ∧ (bqs.update bj).Invalid
            = bqs.Invalid + (if bj.ExitStatus < 0 then 1 else 0)
        ∧ (if bj.ExitStatus = 0 then (1 : ℤ) else 0)
            + (if 0 < bj.ExitStatus then 1 else 0)
            + (if bj.ExitStatus < 0 then 1 else 0) = 1) := by
  constructor
  · have h := applyUpdates_counts (BgQueueStats.new 0) jobs
    have h' := applyUpdates_counts (BgQueueStats.new total) jobs
    obtain ⟨c1, _, c3⟩ := h'
    rw [c1, c3]
    simp [BgQueueStats.new]
  · intro bqs bj
    obtain ⟨h1, h2, h3, h4, _, _⟩ := update_fields bqs bj
    refine ⟨h1, h2, h3, h4, ?_⟩
    rcases lt_trichotomy bj.ExitStatus 0 with h | h | h
    · simp [h, h.ne, not_lt.mpr h.le]
    · simp [h]
    · simp [h.ne', not_lt.mpr h.le, h]

/-- The running-minimum loop of `bgstats.min` yields a lower bound that
is one of the scanned values. -/
theorem foldl_min_facts (rest : List ℤ) (a : ℤ) :
    (∀ x ∈ rest, rest.foldl (fun m w => if w < m then w else m) a ≤ x)
    ∧ rest.foldl (fun m w => if w < m then w else m) a ≤ a
    ∧ rest.foldl (fun m w => if w < m then w else m) a ∈ a :: rest := by
  induction rest generalizing a with
  | nil => simp
  | cons y ys ih =>
    obtain ⟨ih1, ih2, ih3⟩ := ih (if y < a then y else a)
    have hinit_le_y : (if y < a then y else a) ≤ y := by
      split
      · exact le_refl y
      · omega
    have hinit_le_a : (if y < a then y else a) ≤ a := by
      split
      · omega
      · exact le_refl a
    refine ⟨?_, ?_, ?_⟩
    · intro x hx
      rcases List.mem_cons.mp hx with rfl | hx
      · simpa using le_trans ih2 hinit_le_y
      · simpa using ih1 x hx
    · simpa using le_trans ih2 hinit_le_a
    · simp only [List.foldl_cons]
      rcases List.mem_cons.mp ih3 with he | he
      · rw [he]
        split
        · simp
        · simp
      · simp [he]

/-- The running-maximum loop of `bgstats.max` yields an upper bound that
is one of the scanned values. -/
theorem foldl_max_facts (rest : List ℤ) (a : ℤ) :
    (∀ x ∈ rest, x ≤ rest.foldl (fun m w => if w > m then w else m) a)
    ∧ a ≤ rest.foldl (fun m w => if w > m then w else m) a
    ∧ rest.foldl (fun m w => if w > m then w else m) a ∈ a :: rest := by
  induction rest generalizing a with
  | nil => simp
  | cons y ys ih =>
    obtain ⟨ih1, ih2, ih3⟩ := ih (if y > a then y else a)
    have hy_le_init : y ≤ (if y > a then y else a) := by
      split
      · exact le_refl y
      · omega
    have ha_le_init : a ≤ (if y > a then y else a) := by
      split
      · omega
      · exact le_refl a
    refine ⟨?_, ?_, ?_⟩
    · intro x hx
      rcases List.mem_cons.mp hx with rfl | hx
      · simpa using le_trans hy_le_init ih2
      · simpa using ih1 x hx
    · simpa using le_trans ha_le_init ih2
    · simp only [List.foldl_cons]
      rcases List.mem_cons.mp ih3 with he | he
      · rw [he]
        split
        · simp
        · simp
      · simp [he]



/-- Shifting the accumulator out of a left-fold of additions. -/
theorem foldl_add_init (l : List ℤ) (a : ℤ) :
    l.foldl (· + ·) a = a + l.foldl (· + ·) 0 := by
  induction l generalizing a with
  | nil => simp
  | cons y ys ih =>
    simp only [List.foldl_cons]
    rw [ih (a + y), ih (0 + y)]
    ring

/-- Peeling one element off `bgstats.sum`. -/
theorem sum_cons_eq (x : ℤ) (xs : List ℤ) :
    bgstats.sum (x :: xs) = x + bgstats.sum xs := by
  unfold bgstats.sum
  simp only [List.foldl_cons]
  rw [foldl_add_init xs (0 + x)]
  ring

/-- A list sum is bounded by length times a uniform lower or upper
bound of its elements. -/
theorem sum_bounds (l : List ℤ) (m M : ℤ)
    (hm : ∀ x ∈ l, m ≤ x) (hM : ∀ x ∈ l, x ≤ M) :
    (l.length : ℤ) * m ≤ bgstats.sum l ∧ bgstats.sum l ≤ (l.length : ℤ) * M := by
  induction l with
  | nil => simp [bgstats.sum]
  | cons y ys ih =>
    obtain ⟨ih1, ih2⟩ := ih (fun x hx => hm x (List.mem_cons_of_mem y hx))
      (fun x hx => hM x (List.mem_cons_of_mem y hx))
    have hym : m ≤ y := hm y (List.mem_cons_self y ys)
    have hyM : y ≤ M := hM y (List.mem_cons_self y ys)
    rw [sum_cons_eq]
    constructor
    · simp only [List.length_cons]
      push_cast
      linarith
    · simp only [List.length_cons]
      push_cast
      linarith

/-- Lower bound for truncated division by a positive divisor. -/
theorem le_tdiv_of_mul_le {s n m : ℤ} (hn : 0 < n) (h : n * m ≤ s) :
    m ≤ s.tdiv n := by
  rcases le_or_lt 0 s with hs | hs
  · rw [Int.tdiv_eq_ediv hs hn.le]
    exact (Int.le_ediv_iff_mul_le hn).mpr (by linarith [mul_comm n m])
  · have hneg : s.tdiv n = -((-s).tdiv n) := by
      have := Int.neg_tdiv s n
      linarith
    have hE : (-s).tdiv n = (-s) / n := Int.tdiv_eq_ediv (by linarith) hn.le
    have hle : (-s) ≤ n * (-m) := by linarith
    have := Int.ediv_le_ediv hn hle
    rw [Int.mul_ediv_cancel_left _ hn.ne'] at this
    rw [hneg, hE]
    linarith

/-- Upper bound for truncated division by a positive divisor. -/
theorem tdiv_le_of_le_mul {s n M : ℤ} (hn : 0 < n) (h : s ≤ n * M) :
    s.tdiv n ≤ M := by
  rcases le_or_lt 0 s with hs | hs
  · rw [Int.tdiv_eq_ediv hs hn.le]
    have := Int.ediv_le_ediv hn h
    rwa [Int.mul_ediv_cancel_left _ hn.ne'] at this
  · have hneg : s.tdiv n = -((-s).tdiv n) := by
      have := Int.neg_tdiv s n
      linarith
    have hE : (-s).tdiv n = (-s) / n := Int.tdiv_eq_ediv (by linarith) hn.le
    have hle : n * (-M) ≤ -s := by linarith
    have := Int.ediv_le_ediv hn hle
    rw [Int.mul_ediv_cancel_left _ hn.ne'] at this
    rw [hneg, hE]
    linarith

/-- C6 (confirmed): whenever the stored duration sample list is
non-empty (equivalently `Completed ≥ 1`, see the sample-count invariant),
the values returned by `MinimumRunTime()`, `AverageRunTime()` (the
integer-truncated mean of the stored durations) and `MaximumRunTime()`
satisfy `MinimumRunTime ≤ AverageRunTime ≤ MaximumRunTime`. -/
theorem minimum_le_average_le_maximum (bqs : BgQueueStats) (mn av mx : ℤ)
    (hmn : bqs.MinimumRunTime = some mn)
    (hav : bqs.AverageRunTime = some av)
    (hmx : bqs.MaximumRunTime = some mx) :
    mn ≤ av ∧ av ≤ mx := by
  unfold BgQueueStats.MinimumRunTime at hmn
  unfold BgQueueStats.AverageRunTime at hav
  unfold BgQueueStats.MaximumRunTime at hmx
  rcases hl : bqs.durations with _ | ⟨d, rest⟩
  · rw [hl] at hmn
    simp [bgstats.min] at hmn
  · rw [hl] at hmn hav hmx
    unfold bgstats.average at hav
    rw [if_neg (by simp only [List.length_cons]; omega)] at hav
    have hav' : av = (bgstats.sum (d :: rest)).tdiv ((d :: rest).length : ℤ) := by
      exact (Option.some_inj.mp hav).symm
    have hmn' : mn = (d :: rest).tail.foldl (fun m w => if w < m then w else m) d := by
      unfold bgstats.min at hmn
      simpa using (Option.some_inj.mp hmn).symm
    have hmx' : mx = (d :: rest).tail.foldl (fun m w => if w > m then w else m) d := by
      unfold bgstats.max at hmx
      simpa using (Option.some_inj.mp hmx).symm
    obtain ⟨mn1, mn2, _⟩ := foldl_min_facts rest d
    obtain ⟨mx1, mx2, _⟩ := foldl_max_facts rest d
    have hmnle : ∀ x ∈ d :: rest, mn ≤ x := by
      intro x hx
      rcases List.mem_cons.mp hx with rfl | hx
      · rw [hmn']; simpa using mn2
      · rw [hmn']; simpa using mn1 x hx
    have hmxle : ∀ x ∈ d :: rest, x ≤ mx := by
      intro x hx
      rcases List.mem_cons.mp hx with rfl | hx
      · rw [hmx']; simpa using mx2
      · rw [hmx']; simpa using mx1 x hx
    obtain ⟨hs1, hs2⟩ := sum_bounds (d :: rest) mn mx hmnle hmxle
    have hnpos : (0 : ℤ) < ((d :: rest).length : ℤ) := by
      simp only [List.length_cons]
      push_cast
      omega
    rw [hav']
    exact ⟨le_tdiv_of_mul_le hnpos (by linarith [mul_comm ((d :: rest).length : ℤ) mn]),
      tdiv_le_of_le_mul hnpos (by linarith [mul_comm ((d :: rest).length : ℤ) mx])⟩



/-- C10 (confirmed): after any sequence of `Update` calls starting from
`New`, the number of stored duration samples equals `Completed`; hence
whenever `Completed ≥ 1` the sample list is non-empty and the
sample-based queries index their first element and divide by the sample
count on a non-empty list — `AverageRunTime`, `MinimumRunTime` and
`MaximumRunTime` all return a value instead of panicking (and the same
non-emptiness underlies `Variance`, `StdDev` and `RootMeanSquare`, whose
only partiality is the division by the same sample count). -/
theorem durations_track_completed (total : ℤ) (jobs : List BackgroundJob) :
    ((((BgQueueStats.new total).applyUpdates jobs).durations.length : ℤ)
      = ((BgQueueStats.new total).applyUpdates jobs).Completed)
    ∧ (1 ≤ ((BgQueueStats.new total).applyUpdates jobs).Completed →
        ((BgQueueStats.new total).applyUpdates jobs).durations ≠ []
        ∧ (((BgQueueStats.new total).applyUpdates jobs).AverageRunTime).isSome = true
        ∧ (((BgQueueStats.new total).applyUpdates jobs).MinimumRunTime).isSome = true
        ∧ (((BgQueueStats.new total).applyUpdates jobs).MaximumRunTime).isSome = true) := by
  obtain ⟨c1, c2, _⟩ := applyUpdates_counts (BgQueueStats.new total) jobs
  have hL : ((((BgQueueStats.new total).applyUpdates jobs).durations.length : ℤ)
      = ((BgQueueStats.new total).applyUpdates jobs).Completed) := by
    rw [c1, c2]
    simp [BgQueueStats.new]
  refine ⟨hL, ?_⟩
  intro hc
  have hne : ((BgQueueStats.new total).applyUpdates jobs).durations ≠ [] := by
    intro he
    rw [he] at hL
    simp at hL
    omega
  refine ⟨hne, ?_, ?_, ?_⟩
  · unfold BgQueueStats.AverageRunTime bgstats.average
    rw [if_neg (fun h => hne (List.length_eq_zero.mp h))]
    simp
  · unfold BgQueueStats.MinimumRunTime bgstats.min
    rcases hd : ((BgQueueStats.new total).applyUpdates jobs).durations with _ | ⟨d, rest⟩
    · exact absurd hd hne
    · simp
  · unfold BgQueueStats.MaximumRunTime bgstats.max
    rcases hd : ((BgQueueStats.new total).applyUpdates jobs).durations with _ | ⟨d, rest⟩
    · exact absurd hd hne
    · simp



/-- The tick step is at least one when there is at least one job. -/
theorem tickStep_pos (N T : ℕ) (hN : 1 ≤ N) (hT : 1 ≤ T) : 1 ≤ tickStep N T := by
  unfold tickStep
  exact (Nat.le_div_iff_mul_le (by omega)).mpr (by omega)

/-- The tick step is the ceiling of `numJobs / numTicks`. -/
theorem tickStep_eq_ceil (N T : ℕ) (hN : 1 ≤ N) (hT : 1 ≤ T) :
    (tickStep N T : ℤ) = ⌈(N : ℚ) / (T : ℚ)⌉ := by
  obtain ⟨u, rfl⟩ : ∃ u, T = u + 1 := ⟨T - 1, by omega⟩
  have hts : tickStep N (u + 1) = (N + u) / (u + 1) := by
    unfold tickStep
    congr 1
  have hd := Nat.div_add_mod (N + u) (u + 1)
  have hm : (N + u) % (u + 1) < u + 1 := Nat.mod_lt _ (by omega)
  have key1 : N ≤ (u + 1) * ((N + u) / (u + 1)) := by linarith
  have key2 : (u + 1) * ((N + u) / (u + 1)) < N + (u + 1) := by
    linarith [Nat.zero_le ((N + u) % (u + 1))]
  have hT0 : (0 : ℚ) < (((u + 1 : ℕ)) : ℚ) := by positivity
  have h1 : (N : ℚ) ≤ (((u + 1 : ℕ)) : ℚ) * ((((N + u) / (u + 1) : ℕ)) : ℚ) := by
    exact_mod_cast key1
  have h2 : (((u + 1 : ℕ)) : ℚ) * ((((N + u) / (u + 1) : ℕ)) : ℚ)
      < (N : ℚ) + (((u + 1 : ℕ)) : ℚ) := by
    exact_mod_cast key2
  rw [eq_comm, Int.ceil_eq_iff, Int.cast_natCast, hts]
  constructor
  · rw [lt_div_iff hT0]
    nlinarith
  · rw [div_le_iff hT0]
    nlinarith

/-- C8 (confirmed): for every `N ≥ 1` and `numTicks ≥ 1`, the tick step
equals `⌈N / numTicks⌉`, and the boundary sequence produced by
`updateNextTick` is monotonically non-decreasing, capped at `N`, and
strictly increasing while below `N`. -/
theorem tick_boundaries (N T : ℕ) (hN : 1 ≤ N) (hT : 1 ≤ T) :
    ((tickStep N T : ℤ) = ⌈(N : ℚ) / (T : ℚ)⌉)
    ∧ (∀ k, nextTickSeq N T k ≤ nextTickSeq N T (k + 1))
    ∧ (∀ k, nextTickSeq N T k ≤ N)
    ∧ (∀ k, nextTickSeq N T k < N → nextTickSeq N T k < nextTickSeq N T (k + 1)) := by
  have hstep := tickStep_pos N T hN hT
  have hcap : ∀ k, nextTickSeq N T k ≤ N := by
    intro k
    induction k with
    | zero => simp [nextTickSeq]
    | succ k ih =>
      simp only [nextTickSeq]
      exact Nat.min_le_right _ _
  refine ⟨tickStep_eq_ceil N T hN hT, ?_, hcap, ?_⟩
  · intro k
    simp only [nextTickSeq]
    exact Nat.le_min.mpr ⟨Nat.le_add_right _ _, hcap k⟩
  · intro k hk
    simp only [nextTickSeq]
    exact Nat.lt_min.mpr ⟨by omega, hk⟩

/-- C6 witness: two stored durations 2 and 4 give minimum 2, truncated
average 3 and maximum 4. -/
theorem minimum_le_average_le_maximum_witness :
    ({ durations := [2, 4] } : BgQueueStats).MinimumRunTime = some 2
    ∧ ({ durations := [2, 4] } : BgQueueStats).AverageRunTime = some 3
    ∧ ({ durations := [2, 4] } : BgQueueStats).MaximumRunTime = some 4
    ∧ ((2 : ℤ) ≤ 3 ∧ (3 : ℤ) ≤ 4) :=
  ⟨by decide, by decide, by decide,
    minimum_le_average_le_maximum ({ durations := [2, 4] } : BgQueueStats) 2 3 4
      (by decide) (by decide) (by decide)⟩

/-- C10 witness: one update on a fresh accumulator for one job. -/
theorem durations_track_completed_witness :
    ((((BgQueueStats.new 1).applyUpdates [⟨0, 5⟩]).durations.length : ℤ)
      = ((BgQueueStats.new 1).applyUpdates [⟨0, 5⟩]).Completed)
    ∧ (((BgQueueStats.new 1).applyUpdates [⟨0, 5⟩]).durations ≠ []
        ∧ (((BgQueueStats.new 1).applyUpdates [⟨0, 5⟩]).AverageRunTime).isSome = true
        ∧ (((BgQueueStats.new 1).applyUpdates [⟨0, 5⟩]).MinimumRunTime).isSome = true
        ∧ (((BgQueueStats.new 1).applyUpdates [⟨0, 5⟩]).MaximumRunTime).isSome = true) :=
  ⟨(durations_track_completed 1 [⟨0, 5⟩]).1,
    (durations_track_completed 1 [⟨0, 5⟩]).2 (by decide)⟩

/-- C8 witness: five jobs and two ticks give step 3 and boundaries
0, 3, 5. -/
theorem tick_boundaries_witness :
    ((tickStep 5 2 : ℤ) = ⌈(5 : ℚ) / (2 : ℚ)⌉)
    ∧ nextTickSeq 5 2 0 ≤ nextTickSeq 5 2 (0 + 1)
    ∧ nextTickSeq 5 2 1 ≤ 5
    ∧ nextTickSeq 5 2 0 < nextTickSeq 5 2 (0 + 1) :=
  ⟨(tick_boundaries 5 2 (by decide) (by decide)).1,
    (tick_boundaries 5 2 (by decide) (by decide)).2.1 0,
    (tick_boundaries 5 2 (by decide) (by decide)).2.2.1 1,
    (tick_boundaries 5 2 (by decide) (by decide)).2.2.2 0 (by decide)⟩

/-- Effect of `List.set` on a `countP`: the old value at the index is
swapped out and the new value swapped in. -/
theorem countP_set_eq {α : Type} (p : α → Bool) (l : List α) (i : ℕ) (a d : α)
    (h : i < l.length) :
    (l.set i a).countP p + (if p (l.getD i d) then 1 else 0)
      = l.countP p + (if p a then 1 else 0) := by
  induction l generalizing i with
  | nil => simp at h
  | cons x xs ih =>
    cases i with
    | zero =>
      simp only [List.set, List.countP_cons, List.getD_cons_zero]
      omega
    | succ i =>
      have h' : i < xs.length := by simpa using h
      have := ih i h'
      simp only [List.set, List.countP_cons, List.getD_cons_succ]
      omega

/-- Reading an updated index. -/
theorem getD_set_self {α : Type} (l : List α) (i : ℕ) (a d : α) (h : i < l.length) :
    (l.set i a).getD i d = a := by
  simp [List.getD_eq_getElem?_getD, List.getElem?_set_self h]

/-- Reading an untouched index. -/
theorem getD_set_ne {α : Type} (l : List α) (i j : ℕ) (a d : α) (hij : i ≠ j) :
    (l.set i a).getD j d = l.getD j d := by
  simp [List.getD_eq_getElem?_getD, List.getElem?_set_ne hij]

/-- Reading past the end of a list gives the default. -/
theorem getD_of_le {α : Type} (l : List α) (i : ℕ) (d : α) (h : l.length ≤ i) :
    l.getD i d = d := by
  simp [List.getD_eq_getElem?_getD, List.getElem?_eq_none h]

/-- An index whose read differs from the default is in bounds. -/
theorem lt_length_of_getD_ne {α : Type} (l : List α) (i : ℕ) (d : α)
    (h : l.getD i d ≠ d) : i < l.length := by
  by_contra hge
  push_neg at hge
  exact h (getD_of_le l i d hge)

/-- Reading an in-bounds index. -/
theorem getD_of_lt {α : Type} (l : List α) (i : ℕ) (d : α) (h : i < l.length) :
    l.getD i d = l.get ⟨i, h⟩ := by
  simp [List.getD_eq_getElem?_getD, List.getElem?_eq_getElem h]

/-- A list with a counterexample element has a strictly partial count. -/
theorem countP_lt_length_of_getD {α : Type} (p : α → Bool) (l : List α) (i : ℕ)
    (d : α) (h : i < l.length) (hp : p (l.getD i d) = false) :
    l.countP p < l.length := by
  have hmem : l.getD i d ∈ l := by
    rw [getD_of_lt l i d h]
    exact List.get_mem l i h
  have hlen := List.length_eq_countP_add_countP (p := p) (l := l)
  have hp' : p (l[i]?.getD d) = false := by
    simpa [List.getD_eq_getElem?_getD] using hp
  have hpos : 0 < List.countP (fun a => ¬p a) l := by
    rw [List.countP_pos_iff]
    exact ⟨l.getD i d, hmem, by simp [hp']⟩
  omega



/-- The invariant holds at the start of `Run`. -/
theorem schedInv_init (numJobs numSlots : ℕ) :
    SchedInv numJobs numSlots (initState numJobs) := by
  unfold SchedInv initState slotsHeld sentCount
  refine ⟨by simp, by simp, ?_, ?_, ?_⟩
  · have h0 : List.countP JobPhase.holdsSlot (List.replicate numJobs .idle) = 0 := by
      rw [List.countP_eq_zero]
      intro a ha
      rw [List.eq_of_mem_replicate ha]
      simp [JobPhase.holdsSlot]
    simp [h0]
  · have h0 : List.countP JobPhase.delivered (List.replicate numJobs .idle) = 0 := by
      rw [List.countP_eq_zero]
      intro a ha
      rw [List.eq_of_mem_replicate ha]
      simp [JobPhase.delivered]
    simp [h0]
  · intro i hi
    have h1 : (List.replicate numJobs (0 : ℕ)).getD i 0 = 0 := by
      rw [getD_of_lt _ i 0 (by simpa using hi)]
      exact List.get_replicate 0 _
    have h2 : (List.replicate numJobs JobPhase.idle).getD i .exited = .idle := by
      rw [getD_of_lt _ i _ (by simpa using hi)]
      exact List.get_replicate JobPhase.idle _
    rw [h1, h2]
    simp [JobPhase.delivered]

/-- Every transition preserves the invariant. -/
theorem schedInv_preserved {numJobs numSlots : ℕ} {s t : QState}
    (hInv : SchedInv numJobs numSlots s) (hstep : Step numJobs numSlots s t) :
    SchedInv numJobs numSlots t := by
  obtain ⟨lenP, lenS, slots, recvLe, sendsOk⟩ := hInv
  cases hstep with
  | acquire i hp hs =>
    have hi : i < s.phases.length :=
      lt_length_of_getD_ne _ _ _ (by rw [hp]; simp)
    have hslot := countP_set_eq JobPhase.holdsSlot s.phases i .running .exited hi
    have hsent := countP_set_eq JobPhase.delivered s.phases i .running .exited hi
    rw [hp] at hslot hsent
    simp [JobPhase.holdsSlot, JobPhase.delivered] at hslot hsent
    refine ⟨by simpa using lenP, lenS, ?_, ?_, ?_⟩
    · unfold slotsHeld at *
      dsimp only
      omega
    · unfold sentCount at *
      dsimp only
      omega
    · intro j hj
      dsimp only
      rcases eq_or_ne j i with rfl | hne
      · rw [getD_set_self _ _ _ _ (by omega)]
        have := sendsOk j hj
        rw [hp] at this
        simpa [JobPhase.delivered] using this
      · rw [getD_set_ne _ i j _ _ (Ne.symm hne)]
        exact sendsOk j hj
  | finish i hp =>
    have hi : i < s.phases.length :=
      lt_length_of_getD_ne _ _ _ (by rw [hp]; simp)
    have hslot := countP_set_eq JobPhase.holdsSlot s.phases i .cmdDone .exited hi
    have hsent := countP_set_eq JobPhase.delivered s.phases i .cmdDone .exited hi
    rw [hp] at hslot hsent
    simp [JobPhase.holdsSlot, JobPhase.delivered] at hslot hsent
    refine ⟨by simpa using lenP, lenS, ?_, ?_, ?_⟩
    · unfold slotsHeld at *
      dsimp only
      omega
    · unfold sentCount at *
      dsimp only
      omega
    · intro j hj
      dsimp only
      rcases eq_or_ne j i with rfl | hne
      · rw [getD_set_self _ _ _ _ (by omega)]
        have := sendsOk j hj
        rw [hp] at this
        simpa [JobPhase.delivered] using this
      · rw [getD_set_ne _ i j _ _ (Ne.symm hne)]
        exact sendsOk j hj
  | send i hp hcap =>
    have hi : i < s.phases.length :=
      lt_length_of_getD_ne _ _ _ (by rw [hp]; simp)
    have hslot := countP_set_eq JobPhase.holdsSlot s.phases i .sentResult .exited hi
    have hsent := countP_set_eq JobPhase.delivered s.phases i .sentResult .exited hi
    rw [hp] at hslot hsent
    simp [JobPhase.holdsSlot, JobPhase.delivered] at hslot hsent
    refine ⟨by simpa using lenP, by simpa using lenS, ?_, ?_, ?_⟩
    · unfold slotsHeld at *
      dsimp only
      omega
    · unfold sentCount at *
      dsimp only
      omega
    · intro j hj
      dsimp only
      rcases eq_or_ne j i with rfl | hne
      · rw [getD_set_self _ _ _ _ (by omega), getD_set_self _ _ _ _ (by omega)]
        have := sendsOk j hj
        rw [hp] at this
        simp [JobPhase.delivered] at this ⊢
        omega
      · rw [getD_set_ne _ i j _ _ (Ne.symm hne), getD_set_ne _ i j _ _ (Ne.symm hne)]
        exact sendsOk j hj
  | release i hp =>
    have hi : i < s.phases.length :=
      lt_length_of_getD_ne _ _ _ (by rw [hp]; simp)
    have hslot := countP_set_eq JobPhase.holdsSlot s.phases i .exited .exited hi
    have hsent := countP_set_eq JobPhase.delivered s.phases i .exited .exited hi
    rw [hp] at hslot hsent
    simp [JobPhase.holdsSlot, JobPhase.delivered] at hslot hsent
    refine ⟨by simpa using lenP, lenS, ?_, ?_, ?_⟩
    · unfold slotsHeld at *
      dsimp only
      omega
    · unfold sentCount at *
      dsimp only
      omega
    · intro j hj
      dsimp only
      rcases eq_or_ne j i with rfl | hne
      · rw [getD_set_self _ _ _ _ (by omega)]
        have := sendsOk j hj
        rw [hp] at this
        simpa [JobPhase.delivered] using this
      · rw [getD_set_ne _ i j _ _ (Ne.symm hne)]
        exact sendsOk j hj
  | recv h =>
    refine ⟨by dsimp only; exact lenP, by dsimp only; exact lenS, ?_, ?_, ?_⟩
    · unfold slotsHeld at *
      dsimp only
      omega
    · unfold sentCount at *
      dsimp only
      omega
    · intro j hj
      dsimp only
      exact sendsOk j hj

/-- The invariant holds in every reachable state. -/
theorem schedInv_reachable {numJobs numSlots : ℕ} {s : QState}
    (hs : Reachable numJobs numSlots s) : SchedInv numJobs numSlots s := by
  induction hs with
  | init => exact schedInv_init numJobs numSlots
  | step _ hstep ih => exact schedInv_preserved ih hstep



/-- Effect of `List.set` on the sum of a mapped list. -/
theorem sum_map_set {α : Type} (f : α → ℕ) (l : List α) (i : ℕ) (a d : α)
    (h : i < l.length) :
    ((l.set i a).map f).sum + f (l.getD i d) = (l.map f).sum + f a := by
  induction l generalizing i with
  | nil => simp at h
  | cons x xs ih =>
    cases i with
    | zero =>
      simp only [List.set, List.map_cons, List.sum_cons, List.getD_cons_zero]
      omega
    | succ i =>
      have := ih i (by simpa using h)
      simp only [List.set, List.map_cons, List.sum_cons, List.getD_cons_succ]
      omega

/-- Every transition strictly decreases the termination measure, so
every execution of `Run` is finite. -/
theorem runMeasure_decreases {numJobs numSlots : ℕ} {s t : QState}
    (hInv : SchedInv numJobs numSlots s) (hstep : Step numJobs numSlots s t) :
    runMeasure numJobs t < runMeasure numJobs s := by
  obtain ⟨lenP, lenS, slots, recvLe, sendsOk⟩ := hInv
  cases hstep with
  | acquire i hp hs =>
    have hi : i < s.phases.length :=
      lt_length_of_getD_ne _ _ _ (by rw [hp]; simp)
    have hsum := sum_map_set phaseWork s.phases i .running .exited hi
    rw [hp] at hsum
    simp only [phaseWork] at hsum
    unfold runMeasure
    dsimp only
    omega
  | finish i hp =>
    have hi : i < s.phases.length :=
      lt_length_of_getD_ne _ _ _ (by rw [hp]; simp)
    have hsum := sum_map_set phaseWork s.phases i .cmdDone .exited hi
    rw [hp] at hsum
    simp only [phaseWork] at hsum
    unfold runMeasure
    dsimp only
    omega
  | send i hp hcap =>
    have hi : i < s.phases.length :=
      lt_length_of_getD_ne _ _ _ (by rw [hp]; simp)
    have hsum := sum_map_set phaseWork s.phases i .sentResult .exited hi
    rw [hp] at hsum
    simp only [phaseWork] at hsum
    unfold runMeasure
    dsimp only
    omega
  | release i hp =>
    have hi : i < s.phases.length :=
      lt_length_of_getD_ne _ _ _ (by rw [hp]; simp)
    have hsum := sum_map_set phaseWork s.phases i .exited .exited hi
    rw [hp] at hsum
    simp only [phaseWork] at hsum
    unfold runMeasure
    dsimp only
    omega
  | recv h =>
    have hsentle : sentCount s ≤ numJobs := by
      have hle := List.countP_le_length (p := JobPhase.delivered) (l := s.phases)
      unfold sentCount
      omega
    unfold runMeasure
    dsimp only
    omega

/-- In a final state the consumer has received all `numJobs` results and
every goroutine has sent its job exactly once. -/
theorem finalState_completed {numJobs numSlots : ℕ} {s : QState}
    (hInv : SchedInv numJobs numSlots s) (hfin : FinalState s) :
    s.completed = numJobs ∧ ∀ i, i < numJobs → s.sends.getD i 0 = 1 := by
  obtain ⟨lenP, lenS, slots, recvLe, sendsOk⟩ := hInv
  obtain ⟨hall, hrecv⟩ := hfin
  have hsent : sentCount s = numJobs := by
    unfold sentCount
    rw [List.countP_eq_length.mpr]
    · exact lenP
    · intro a ha
      rw [hall a ha]
      simp [JobPhase.delivered]
  constructor
  · omega
  · intro i hi
    have hip : i < s.phases.length := by omega
    have hg : s.phases.getD i JobPhase.exited = JobPhase.exited := by
      rw [getD_of_lt _ _ _ hip]
      exact hall _ (List.get_mem s.phases i hip)
    have hsi := sendsOk i hi
    rw [hg] at hsi
    simpa [JobPhase.delivered] using hsi

/-- No reachable non-final state is stuck: with at least one admission
slot some goroutine or the consumer can always move. -/
theorem sched_progress {numJobs numSlots : ℕ} {s : QState} (hC : 1 ≤ numSlots)
    (hInv : SchedInv numJobs numSlots s) (hnf : ¬FinalState s) :
    ∃ t, Step numJobs numSlots s t := by
  obtain ⟨lenP, lenS, slots, recvLe, sendsOk⟩ := hInv
  by_cases hhold : ∃ x ∈ s.phases, JobPhase.holdsSlot x = true
  · obtain ⟨x, hx, hpx⟩ := hhold
    obtain ⟨⟨i, hi⟩, hgi⟩ := List.mem_iff_get.mp hx
    have hgd : s.phases.getD i JobPhase.exited = x := by
      rw [getD_of_lt _ _ _ hi]
      exact hgi
    cases x with
    | running => exact ⟨_, Step.finish s i hgd⟩
    | cmdDone =>
      have hlt : List.countP JobPhase.delivered s.phases < s.phases.length :=
        countP_lt_length_of_getD _ _ i _ hi (by rw [hgd]; rfl)
      have hcap : sentCount s - s.completed < numJobs := by
        unfold sentCount
        omega
      exact ⟨_, Step.send s i hgd hcap⟩
    | sentResult => exact ⟨_, Step.release s i hgd⟩
    | idle => exact absurd hpx (by simp [JobPhase.holdsSlot])
    | exited => exact absurd hpx (by simp [JobPhase.holdsSlot])
  · push_neg at hhold
    by_cases hidle : ∃ x ∈ s.phases, x = JobPhase.idle
    · obtain ⟨x, hx, rfl⟩ := hidle
      obtain ⟨⟨i, hi⟩, hgi⟩ := List.mem_iff_get.mp hx
      have hgd : s.phases.getD i JobPhase.exited = JobPhase.idle := by
        rw [getD_of_lt _ _ _ hi]
        exact hgi
      have hz : slotsHeld s = 0 := by
        unfold slotsHeld
        rw [List.countP_eq_zero]
        intro a ha
        simpa using hhold a ha
      exact ⟨_, Step.acquire s i hgd (by omega)⟩
    · push_neg at hidle
      have hall : ∀ x ∈ s.phases, x = JobPhase.exited := by
        intro x hx
        have h1 := hhold x hx
        have h2 := hidle x hx
        cases x <;> simp_all [JobPhase.holdsSlot]
      have hne : s.completed ≠ sentCount s := by
        intro he
        exact hnf ⟨hall, he⟩
      exact ⟨_, Step.recv s (by omega)⟩

/-- C5 (confirmed): for every configuration with `1 ≤ numSlots ≤ numJobs`
and every reachable state of the scheduler's interleaving semantics: no
more than `numSlots` jobs are in the started-but-unfinished state; in any
final state (all goroutines exited, channel drained) the consumer has
performed `Stats.Update` exactly `numJobs` times — so
`Stats.Completed = numJobs` — and each of the `numJobs` jobs was
delivered to the consumer exactly once; moreover every non-final
reachable state has an enabled transition and every transition strictly
decreases a natural-number measure, so every run completes in a final
state. -/
theorem scheduler_bounded_and_complete (numJobs numSlots : ℕ)
    (hC1 : 1 ≤ numSlots) (hCN : numSlots ≤ numJobs)
    (s : QState) (hs : Reachable numJobs numSlots s) :
    runningCount s ≤ numSlots
    ∧ (FinalState s →
        s.completed = numJobs ∧ ∀ i, i < numJobs → s.sends.getD i 0 = 1)
    ∧ (¬FinalState s → ∃ t, Step numJobs numSlots s t)
    ∧ (∀ t, Step numJobs numSlots s t →
        runMeasure numJobs t < runMeasure numJobs s) := by
  obtain ⟨lenP, lenS, slots, recvLe, sendsOk⟩ := schedInv_reachable hs
  refine ⟨?_, ?_, ?_, ?_⟩
  · have hmono : runningCount s ≤ slotsHeld s := by
      unfold runningCount slotsHeld
      apply List.countP_mono_left
      intro x hx hpx
      cases x <;> simp_all [JobPhase.isRunning, JobPhase.holdsSlot]
    omega
  · exact fun hf => finalState_completed (schedInv_reachable hs) hf
  · exact fun hnf => sched_progress hC1 (schedInv_reachable hs) hnf
  · exact fun t hstep => runMeasure_decreases (schedInv_reachable hs) hstep

/-- C5 witness at the initial state of a two-job, one-slot run. -/
theorem scheduler_bounded_and_complete_witness :
    runningCount (initState 2) ≤ 1
    ∧ (FinalState (initState 2) →
        (initState 2).completed = 2 ∧ ∀ i, i < 2 → (initState 2).sends.getD i 0 = 1)
    ∧ (¬FinalState (initState 2) → ∃ t, Step 2 1 (initState 2) t)
    ∧ (∀ t, Step 2 1 (initState 2) t →
        runMeasure 2 t < runMeasure 2 (initState 2)) :=
  scheduler_bounded_and_complete 2 1 (by decide) (by decide) (initState 2)
    Reachable.init

end TelemetryTools
